import Mathlib

/-!
Verification of the identifier-allocation and fuzzy-lookup core of
`Projekt1/address_book.py`.  Strings are modelled as `List Char`; Python's
`/` on integers is modelled by rational division; Python dictionaries are
modelled as insertion-ordered association lists and Python sets as `Finset`.
-/

/-- Substitution cost used by both edit-distance implementations:
`0 if s1[i - 1] == s2[j - 1] else 1`. -/
def cost (c d : Char) : Nat := if c = d then 0 else 1

/-- Row `i + 1` of the dynamic-programming matrix, computed from row `i`
(`prevRow`), following the cell formula of `weighted_levenshtein_distance`:
`matrix[i][j] = min(matrix[i-1][j] + 1, matrix[i][j-1] + 1, matrix[i-1][j-1] + cost)`. -/
def levMatrixRowStep (s t : List Char) (i : Nat) (prevRow : Nat → Nat) : Nat → Nat
  | 0 => i + 1
  | j + 1 =>
      min (prevRow (j + 1) + 1)
        (min (levMatrixRowStep s t i prevRow j + 1)
          (prevRow j + cost (s.getD i ' ') (t.getD j ' ')))

/-- Row `i` of the dynamic-programming matrix of `weighted_levenshtein_distance`
(row `0` is `matrix[0][j] = j`). -/
def levMatrixRow (s t : List Char) : Nat → Nat → Nat
  | 0 => fun j => j
  | i + 1 => levMatrixRowStep s t i (levMatrixRow s t i)

/-- `levMatrix s t i j` is the cell `matrix[i][j]` of the classic full-matrix
dynamic-programming recurrence built inside `weighted_levenshtein_distance`
(also the recurrence stated by the specification): base cases `matrix[i][0] = i`
and `matrix[0][j] = j`, and each interior cell the minimum of insertion cost,
deletion cost and substitution cost from the three neighbouring cells. -/
def levMatrix (s t : List Char) (i j : Nat) : Nat := levMatrixRow s t i j

theorem levMatrix_zero (s t : List Char) (j : Nat) : levMatrix s t 0 j = j := rfl

theorem levMatrix_succ_zero (s t : List Char) (i : Nat) :
    levMatrix s t (i + 1) 0 = i + 1 := rfl

theorem levMatrix_succ_succ (s t : List Char) (i j : Nat) :
    levMatrix s t (i + 1) (j + 1) =
      min (levMatrix s t i (j + 1) + 1)
        (min (levMatrix s t (i + 1) j + 1)
          (levMatrix s t i j + cost (s.getD i ' ') (t.getD j ' '))) := rfl

/-- The inner `for j, c2 in enumerate(s2)` loop of `levenshtein_distance`:
`last` is the value already at the end of the current row, the list argument is
the still-unconsumed tail of `previous_row` (starting at index `j`), and each
step appends `min(insertions, deletions, substitutions)`. -/
def rowAux (c1 : Char) : Nat → List Nat → List Char → List Nat
  | _, _, [] => []
  | _, [], _ :: _ => []
  | _, [_], _ :: _ => []
  | last, pj :: pj1 :: rest, c2 :: cs =>
      let v := min (pj1 + 1) (min (last + 1) (pj + cost c1 c2))
      v :: rowAux c1 v (pj1 :: rest) cs

/-- One iteration of the outer `for i, c1 in enumerate(s1)` loop of
`levenshtein_distance`: `current_row = [i + 1]` extended by the inner loop,
and the row index advances. -/
def outerStep (t : List Char) : List Nat × Nat → Char → List Nat × Nat :=
  fun pr c1 => ((pr.2 + 1) :: rowAux c1 (pr.2 + 1) pr.1 t, pr.2 + 1)

/-- The body of `levenshtein_distance` for the non-swapped argument order:
`previous_row = range(len(s2) + 1)`, one row per character of `s1`, and the
result is `previous_row[-1]`. -/
def levRows (s1 s2 : List Char) : Nat :=
  if s2.length = 0 then s1.length
  else ((s1.foldl (outerStep s2) (List.range (s2.length + 1), 0)).1).getLastD 0

/-- `levenshtein_distance` from the source: when `len(s1) < len(s2)` it calls
itself with the arguments swapped, and that recursive call necessarily takes
the non-swap branch, so the one level of recursion is unfolded here. -/
def levenshtein_distance (s1 s2 : List Char) : Nat :=
  if s1.length < s2.length then levRows s2 s1 else levRows s1 s2

/-- `weighted_levenshtein_distance` from the source: returns the raw length of
the other string when either operand is empty, otherwise fills the full
dynamic-programming matrix and divides the final cell by
`max(len_s1, len_s2)` (rational arithmetic models Python's float division). -/
def weighted_levenshtein_distance (s1 s2 : List Char) : ℚ :=
  if s1.length = 0 then (s2.length : ℚ)
  else if s2.length = 0 then (s1.length : ℚ)
  else (levMatrix s1 s2 s1.length s2.length : ℚ) / ((max s1.length s2.length : Nat) : ℚ)

example : levenshtein_distance "jon".toList "john".toList = 1 := by decide
example : levenshtein_distance "jon".toList "anna".toList = 3 := by decide
example : levenshtein_distance "jon".toList "jonathan".toList = 5 := by decide
example : levenshtein_distance "kitten".toList "sitting".toList = 3 := by decide
example : levMatrix "jon".toList "john".toList 3 4 = 1 := by decide
example : levMatrix "kitten".toList "sitting".toList 6 7 = 3 := by decide
example : weighted_levenshtein_distance [] "ab".toList = 2 := by
  simp [weighted_levenshtein_distance]

theorem cost_comm (c d : Char) : cost c d = cost d c := by
  simp [cost, eq_comm]

theorem cost_le_one (c d : Char) : cost c d ≤ 1 := by
  unfold cost; split <;> omega

theorem cost_self (c : Char) : cost c c = 0 := by
  simp [cost]

theorem levMatrix_zero_right (s t : List Char) (i : Nat) : levMatrix s t i 0 = i := by
  cases i <;> rfl

/-- The full-matrix recurrence is symmetric in its two strings. -/
theorem levMatrix_comm (s t : List Char) : ∀ i j, levMatrix s t i j = levMatrix t s j i := by
  intro i
  induction i with
  | zero => intro j; rw [levMatrix_zero, levMatrix_zero_right]
  | succ i ih =>
    intro j
    induction j with
    | zero => rw [levMatrix_zero, levMatrix_zero_right]
    | succ j ih2 =>
      rw [levMatrix_succ_succ, levMatrix_succ_succ, ih (j + 1), ih j, ih2, cost_comm]
      omega

/-- Diagonal cells of the matrix for a string against itself are `0`. -/
theorem levMatrix_self_diag (s : List Char) : ∀ i, levMatrix s s i i = 0 := by
  intro i
  induction i with
  | zero => rfl
  | succ i ih =>
    rw [levMatrix_succ_succ, ih, cost_self]
    simp

/-- Every matrix cell is bounded by the larger of its two indices. -/
theorem levMatrix_le_max (s t : List Char) : ∀ i j, levMatrix s t i j ≤ max i j := by
  intro i
  induction i with
  | zero => intro j; rw [levMatrix_zero]; omega
  | succ i ih =>
    intro j
    induction j with
    | zero => rw [levMatrix_succ_zero]; omega
    | succ j ih2 =>
      rw [levMatrix_succ_succ]
      have h1 := ih j
      have h2 := cost_le_one (s.getD i ' ') (t.getD j ' ')
      omega

theorem map_range'_shift {α : Type} (f : Nat → α) :
    ∀ (n s : Nat), (List.range' (s + 1) n).map f = (List.range' s n).map (fun k => f (k + 1)) := by
  intro n
  induction n with
  | zero => intro s; rfl
  | succ n ih =>
    intro s
    rw [List.range'_succ, List.range'_succ, List.map_cons, List.map_cons, ih (s + 1)]

/-- The inner loop of `levenshtein_distance`, started at column `j` with the
tail of the matrix row `i` and the current-row value `matrix[i+1][j]`,
produces exactly the cells `matrix[i+1][j+1] .. matrix[i+1][len t]`. -/
theorem rowAux_spec (s t : List Char) (i : Nat) :
    ∀ (cs : List Char) (j : Nat), t.drop j = cs →
      rowAux (s.getD i ' ') (levMatrix s t (i + 1) j)
          ((List.range' j (t.length + 1 - j)).map (levMatrix s t i)) cs
        = (List.range' j cs.length).map (fun k => levMatrix s t (i + 1) (k + 1)) := by
  intro cs
  induction cs with
  | nil =>
    intro j hj
    simp [rowAux]
  | cons c2 cs' ih =>
    intro j hj
    have hlen : t.length - j = cs'.length + 1 := by
      have h := congrArg List.length hj
      simpa using h
    have hjlt : j < t.length := by omega
    have hc2 : t.getD j ' ' = c2 := by
      have h1 : (t.drop j).head? = some c2 := by rw [hj]; rfl
      rw [List.head?_drop, List.getElem?_eq_getElem hjlt] at h1
      rw [List.getD_eq_getElem t ' ' hjlt]
      exact Option.some.inj h1
    have hcs' : t.drop (j + 1) = cs' := by
      rw [← List.tail_drop, hj]; rfl
    have hsub : t.length + 1 - j = cs'.length + 1 + 1 := by omega
    rw [hsub, List.range'_succ, List.range'_succ, List.map_cons, List.map_cons]
    rw [rowAux]
    have hv : min (levMatrix s t i (j + 1) + 1)
        (min (levMatrix s t (i + 1) j + 1) (levMatrix s t i j + cost (s.getD i ' ') c2))
        = levMatrix s t (i + 1) (j + 1) := by
      rw [← hc2]
      exact (levMatrix_succ_succ s t i j).symm
    rw [hv]
    have hfold : levMatrix s t i (j + 1) :: (List.range' (j + 1 + 1) cs'.length).map (levMatrix s t i)
        = (List.range' (j + 1) (t.length + 1 - (j + 1))).map (levMatrix s t i) := by
      rw [show t.length + 1 - (j + 1) = cs'.length + 1 by omega, List.range'_succ, List.map_cons]
    rw [hfold, ih (j + 1) hcs']
    have hlen2 : (c2 :: cs').length = cs'.length + 1 := rfl
    rw [hlen2, List.range'_succ, List.map_cons]

/-- One outer-loop step turns row `i` of the matrix into row `i + 1`. -/
theorem outerStep_spec (s t : List Char) (i : Nat) :
    outerStep t ((List.range' 0 (t.length + 1)).map (levMatrix s t i), i) (s.getD i ' ')
      = ((List.range' 0 (t.length + 1)).map (levMatrix s t (i + 1)), i + 1) := by
  unfold outerStep
  have h0 := rowAux_spec s t i t 0 rfl
  simp only [Nat.sub_zero] at h0
  have hrow : (List.range' 0 (t.length + 1)).map (levMatrix s t (i + 1))
      = (i + 1) :: (List.range' 0 t.length).map (fun k => levMatrix s t (i + 1) (k + 1)) := by
    rw [List.range'_succ, List.map_cons, levMatrix_zero_right, map_range'_shift]
  rw [hrow]
  simp only [Prod.mk.injEq]
  refine ⟨?_, trivial⟩
  rw [← h0]
  rfl

/-- The outer fold of `levenshtein_distance`, resumed after `i` characters of
`s` with row `i` of the matrix, finishes with the final row of the matrix. -/
theorem outerFold_spec (s t : List Char) :
    ∀ (rest : List Char) (i : Nat), s.drop i = rest →
      rest.foldl (outerStep t) ((List.range' 0 (t.length + 1)).map (levMatrix s t i), i)
        = ((List.range' 0 (t.length + 1)).map (levMatrix s t (i + rest.length)), i + rest.length) := by
  intro rest
  induction rest with
  | nil => intro i hi; simp
  | cons c rest' ih =>
    intro i hi
    have hlen : s.length - i = rest'.length + 1 := by
      have h := congrArg List.length hi
      simpa using h
    have hilt : i < s.length := by omega
    have hc : s.getD i ' ' = c := by
      have h1 : (s.drop i).head? = some c := by rw [hi]; rfl
      rw [List.head?_drop, List.getElem?_eq_getElem hilt] at h1
      rw [List.getD_eq_getElem s ' ' hilt]
      exact Option.some.inj h1
    have hrest : s.drop (i + 1) = rest' := by
      rw [← List.tail_drop, hi]; rfl
    have hstep := outerStep_spec s t i
    rw [hc] at hstep
    rw [List.foldl_cons, hstep, ih (i + 1) hrest]
    have hl : i + (c :: rest').length = i + 1 + rest'.length := by
      simp [List.length_cons]; omega
    rw [hl]

/-- The row-optimised body computes the final cell of the full matrix. -/
theorem levRows_eq_levMatrix (s t : List Char) :
    levRows s t = levMatrix s t s.length t.length := by
  unfold levRows
  by_cases ht : t.length = 0
  · rw [if_pos ht, ht, levMatrix_zero_right]
  · rw [if_neg ht]
    have hrow0 : List.range (t.length + 1)
        = (List.range' 0 (t.length + 1)).map (levMatrix s t 0) := by
      rw [show levMatrix s t 0 = id by funext j; rw [levMatrix_zero]; rfl, List.map_id,
        List.range_eq_range']
    rw [hrow0, outerFold_spec s t s 0 rfl]
    simp only [Nat.zero_add]
    rw [List.range'_1_concat, List.map_append]
    simp only [List.map_cons, List.map_nil]
    rw [List.getLastD_concat, Nat.zero_add]

/-- `levenshtein_distance` refines the full-matrix recurrence. -/
theorem lev_eq_matrix (s t : List Char) :
    levenshtein_distance s t = levMatrix s t s.length t.length := by
  unfold levenshtein_distance
  split
  · rw [levRows_eq_levMatrix, levMatrix_comm]
  · rw [levRows_eq_levMatrix]

/-- C6: for all strings `a` and `b`, the row-optimised `levenshtein_distance`
computes the same value as the classic full-matrix dynamic-programming
recurrence (the matrix built inside `weighted_levenshtein_distance`):
base cases are the indices along the first row and column, and each interior
cell is the minimum of insertion, deletion and substitution cost. -/
theorem row_impl_matches_matrix (a b : List Char) :
    levenshtein_distance a b = levMatrix a b a.length b.length :=
  lev_eq_matrix a b

/-- C7: `levenshtein_distance` is symmetric, zero on a string against itself,
and the distance of the empty string against `s` is the length of `s`. -/
theorem distance_algebraic_laws :
    (∀ a b : List Char, levenshtein_distance a b = levenshtein_distance b a) ∧
      (∀ a : List Char, levenshtein_distance a a = 0) ∧
      ∀ s : List Char, levenshtein_distance [] s = s.length := by
  refine ⟨?_, ?_, ?_⟩
  · intro a b
    rw [lev_eq_matrix, lev_eq_matrix, levMatrix_comm]
  · intro a
    rw [lev_eq_matrix, levMatrix_self_diag]
  · intro s
    rw [lev_eq_matrix, List.length_nil, levMatrix_zero]

theorem wld_nonempty_eq (a b : List Char) (ha : a ≠ []) (hb : b ≠ []) :
    weighted_levenshtein_distance a b
      = (levenshtein_distance a b : ℚ) / ((max a.length b.length : Nat) : ℚ) := by
  have ha' : ¬ a.length = 0 := by simpa [List.length_eq_zero] using ha
  have hb' : ¬ b.length = 0 := by simpa [List.length_eq_zero] using hb
  unfold weighted_levenshtein_distance
  rw [if_neg ha', if_neg hb', lev_eq_matrix]

/-- C2 as stated fails on the source: with `a = ""`, `b = "ab"` the function
returns the raw length `2` instead of `Distance(a,b) / max(len a, len b) = 1`,
and `2` is outside `[0, 1]`. -/
theorem wld_claim_counterexample :
    weighted_levenshtein_distance [] ('a' :: 'b' :: []) = 2 ∧
      ¬ weighted_levenshtein_distance [] ('a' :: 'b' :: []) ≤ 1 ∧
      (levenshtein_distance [] ('a' :: 'b' :: []) : ℚ)
          / ((max (List.length ([] : List Char)) (List.length ('a' :: 'b' :: [])) : Nat) : ℚ)
        = 1 := by
  have h1 : levenshtein_distance [] ('a' :: 'b' :: []) = 2 := by decide
  refine ⟨?_, ?_, ?_⟩
  · simp [weighted_levenshtein_distance]
  · simp [weighted_levenshtein_distance]
  · rw [h1]
    norm_num

/-- C2 (amended): when both strings are non-empty the result equals
`Distance(a,b) / max(len a, len b)` and lies in `[0, 1]`; when the first string
is empty the raw length of the second is returned (so the result is `0` when
both are empty but exceeds `1` whenever the other string has length `> 1`);
symmetrically when only the second is empty. -/
theorem wld_amended (a b : List Char) :
    (a = [] → weighted_levenshtein_distance a b = (b.length : ℚ)) ∧
      (a ≠ [] → b = [] → weighted_levenshtein_distance a b = (a.length : ℚ)) ∧
      (a ≠ [] → b ≠ [] →
        weighted_levenshtein_distance a b
            = (levenshtein_distance a b : ℚ) / ((max a.length b.length : Nat) : ℚ) ∧
          0 ≤ weighted_levenshtein_distance a b ∧
          weighted_levenshtein_distance a b ≤ 1) := by
  refine ⟨?_, ?_, ?_⟩
  · intro ha
    subst ha
    simp [weighted_levenshtein_distance]
  · intro ha hb
    subst hb
    have ha' : ¬ a.length = 0 := by simpa [List.length_eq_zero] using ha
    simp [weighted_levenshtein_distance, ha']
  · intro ha hb
    have heq := wld_nonempty_eq a b ha hb
    have hle : levenshtein_distance a b ≤ max a.length b.length := by
      rw [lev_eq_matrix]
      exact levMatrix_le_max a b a.length b.length
    have hmaxpos : 0 < max a.length b.length :=
      lt_of_lt_of_le (List.length_pos.mpr ha) (le_max_left _ _)
    have hq : (0 : ℚ) < ((max a.length b.length : Nat) : ℚ) := by
      exact_mod_cast hmaxpos
    refine ⟨heq, ?_, ?_⟩
    · rw [heq]
      positivity
    · rw [heq, div_le_one hq]
      exact_mod_cast hle

theorem wld_amended_witness :
    weighted_levenshtein_distance ('a' :: 'b' :: []) ('b' :: [])
        = (levenshtein_distance ('a' :: 'b' :: []) ('b' :: []) : ℚ)
          / ((max (List.length ('a' :: 'b' :: [])) (List.length ('b' :: [])) : Nat) : ℚ) ∧
      0 ≤ weighted_levenshtein_distance ('a' :: 'b' :: []) ('b' :: []) ∧
      weighted_levenshtein_distance ('a' :: 'b' :: []) ('b' :: []) ≤ 1 :=
  (wld_amended ('a' :: 'b' :: []) ('b' :: [])).2.2 (by decide) (by decide)

/-- One comparison of Python's built-in `min(iterable, key=f)`: the champion
is replaced only when a strictly smaller key appears. -/
def pyMinStep (f : List Char → ℚ) (best y : List Char) : List Char :=
  if f y < f best then y else best

/-- Python's `min(iterable, key=f)` as used by `suggest_correction_search`:
`none` models the `ValueError` raised on an empty iterable. -/
def pyMinBy (f : List Char → ℚ) : List (List Char) → Option (List Char)
  | [] => none
  | x :: xs => some (xs.foldl (pyMinStep f) x)

theorem pyMinFold_spec (f : List Char → ℚ) :
    ∀ (xs : List (List Char)) (acc : List Char),
      (f (xs.foldl (pyMinStep f) acc) ≤ f acc ∧
          ∀ y ∈ xs, f (xs.foldl (pyMinStep f) acc) ≤ f y) ∧
        (xs.foldl (pyMinStep f) acc = acc ∨
          ∃ l₁ l₂, xs = l₁ ++ (xs.foldl (pyMinStep f) acc) :: l₂ ∧
            f (xs.foldl (pyMinStep f) acc) < f acc ∧
            ∀ y ∈ l₁, f (xs.foldl (pyMinStep f) acc) < f y) := by
  intro xs
  induction xs with
  | nil =>
    intro acc
    exact ⟨⟨le_refl _, by simp⟩, Or.inl rfl⟩
  | cons y ys ih =>
    intro acc
    rw [List.foldl_cons]
    by_cases hy : f y < f acc
    · rw [show pyMinStep f acc y = y from if_pos hy]
      obtain ⟨⟨hle, hall⟩, hor⟩ := ih y
      refine ⟨⟨le_trans hle (le_of_lt hy), ?_⟩, ?_⟩
      · intro z hz
        rcases List.mem_cons.mp hz with h1 | h1
        · rw [h1]; exact hle
        · exact hall z h1
      · rcases hor with heq | ⟨l₁, l₂, hsplit, hlt, hstrict⟩
        · right
          refine ⟨[], ys, ?_, ?_, ?_⟩
          · rw [heq]; rfl
          · rw [heq]; exact hy
          · intro z hz; simp at hz
        · right
          refine ⟨y :: l₁, l₂, ?_, lt_trans hlt hy, ?_⟩
          · rw [List.cons_append, ← hsplit]
          · intro z hz
            rcases List.mem_cons.mp hz with h1 | h1
            · rw [h1]; exact hlt
            · exact hstrict z h1
    · rw [show pyMinStep f acc y = acc from if_neg hy]
      obtain ⟨⟨hle, hall⟩, hor⟩ := ih acc
      have hay : f acc ≤ f y := not_lt.mp hy
      refine ⟨⟨hle, ?_⟩, ?_⟩
      · intro z hz
        rcases List.mem_cons.mp hz with h1 | h1
        · rw [h1]; exact le_trans hle hay
        · exact hall z h1
      · rcases hor with heq | ⟨l₁, l₂, hsplit, hlt, hstrict⟩
        · exact Or.inl heq
        · right
          refine ⟨y :: l₁, l₂, ?_, hlt, ?_⟩
          · rw [List.cons_append, ← hsplit]
          · intro z hz
            rcases List.mem_cons.mp hz with h1 | h1
            · rw [h1]; exact lt_of_lt_of_le hlt hay
            · exact hstrict z h1

theorem pyMinBy_spec (f : List Char → ℚ) (l : List (List Char)) (h : l ≠ []) :
    ∃ m l₁ l₂, pyMinBy f l = some m ∧ l = l₁ ++ m :: l₂ ∧
      (∀ y ∈ l, f m ≤ f y) ∧ ∀ y ∈ l₁, f m < f y := by
  match l with
  | [] => exact absurd rfl h
  | x :: xs =>
    obtain ⟨⟨hle, hall⟩, hor⟩ := pyMinFold_spec f xs x
    refine ⟨xs.foldl (pyMinStep f) x, ?_⟩
    have hglobal : ∀ y ∈ x :: xs, f (xs.foldl (pyMinStep f) x) ≤ f y := by
      intro y hy
      rcases List.mem_cons.mp hy with h1 | h1
      · rw [h1]; exact hle
      · exact hall y h1
    rcases hor with heq | ⟨l₁, l₂, hsplit, hlt, hstrict⟩
    · refine ⟨[], xs, rfl, ?_, hglobal, ?_⟩
      · rw [heq]; rfl
      · intro z hz; simp at hz
    · refine ⟨x :: l₁, l₂, rfl, ?_, hglobal, ?_⟩
      · rw [List.cons_append, ← hsplit]
      · intro z hz
        rcases List.mem_cons.mp hz with h1 | h1
        · rw [h1]; exact hlt
        · exact hstrict z h1

/-- C5: over every non-empty candidate list, the stable `min` of
`suggest_correction_search` (keyed by `weighted_levenshtein_distance`) returns
a candidate of minimal normalised distance to the query, and on ties the one
occurring first in the candidate order; in particular on query `"jon"` and
candidates `["john", "anna", "jonathan"]` it returns `"john"`. -/
theorem suggest_returns_stable_min (q : List Char) (l : List (List Char)) (h : l ≠ []) :
    (∃ m l₁ l₂,
        pyMinBy (fun x => weighted_levenshtein_distance q x) l = some m ∧
          l = l₁ ++ m :: l₂ ∧
          (∀ y ∈ l, weighted_levenshtein_distance q m ≤ weighted_levenshtein_distance q y) ∧
          ∀ y ∈ l₁, weighted_levenshtein_distance q m < weighted_levenshtein_distance q y) ∧
      pyMinBy (fun x => weighted_levenshtein_distance "jon".toList x)
          ["john".toList, "anna".toList, "jonathan".toList] = some "john".toList := by
  refine ⟨pyMinBy_spec _ l h, ?_⟩
  have hja : ¬ weighted_levenshtein_distance "jon".toList "anna".toList
      < weighted_levenshtein_distance "jon".toList "john".toList := by
    rw [wld_nonempty_eq _ _ (by decide) (by decide), wld_nonempty_eq _ _ (by decide) (by decide),
      show levenshtein_distance "jon".toList "anna".toList = 3 from by decide,
      show levenshtein_distance "jon".toList "john".toList = 1 from by decide,
      show max "jon".toList.length "anna".toList.length = 4 from by decide,
      show max "jon".toList.length "john".toList.length = 4 from by decide]
    norm_num
  have hjo : ¬ weighted_levenshtein_distance "jon".toList "jonathan".toList
      < weighted_levenshtein_distance "jon".toList "john".toList := by
    rw [wld_nonempty_eq _ _ (by decide) (by decide), wld_nonempty_eq _ _ (by decide) (by decide),
      show levenshtein_distance "jon".toList "jonathan".toList = 5 from by decide,
      show levenshtein_distance "jon".toList "john".toList = 1 from by decide,
      show max "jon".toList.length "jonathan".toList.length = 8 from by decide,
      show max "jon".toList.length "john".toList.length = 4 from by decide]
    norm_num
  simp only [pyMinBy, List.foldl_cons, List.foldl_nil, pyMinStep]
  rw [if_neg hja, if_neg hjo]

theorem suggest_returns_stable_min_witness :
    (∃ m l₁ l₂,
        pyMinBy (fun x => weighted_levenshtein_distance "jon".toList x)
            ["john".toList, "anna".toList, "jonathan".toList] = some m ∧
          ["john".toList, "anna".toList, "jonathan".toList] = l₁ ++ m :: l₂ ∧
          (∀ y ∈ ["john".toList, "anna".toList, "jonathan".toList],
            weighted_levenshtein_distance "jon".toList m
              ≤ weighted_levenshtein_distance "jon".toList y) ∧
          ∀ y ∈ l₁, weighted_levenshtein_distance "jon".toList m
            < weighted_levenshtein_distance "jon".toList y) ∧
      pyMinBy (fun x => weighted_levenshtein_distance "jon".toList x)
          ["john".toList, "anna".toList, "jonathan".toList] = some "john".toList :=
  suggest_returns_stable_min "jon".toList
    ["john".toList, "anna".toList, "jonathan".toList] (by decide)

/-- A stored record: the `value` strings of its `Name` field, its ordered
`Phone` entries and its ordered `Email` entries (the record's id is the key
under which the store holds it; birthday and address play no role in the
claims). -/
structure Rec where
  name : List Char
  phones : List (List Char)
  emails : List (List Char)
deriving DecidableEq

/-- The `AddressBook` state: the `UserDict` mapping `self.data` (a Python
dict: insertion-ordered, keys unique), the `self.next_id` counter and the
`self.free_ids` set. -/
structure AddressBook where
  data : List (Nat × Rec)
  next_id : Nat
  free_ids : Finset Nat
deriving DecidableEq

/-- `AddressBook.__init__`: empty mapping, `next_id = 1`, empty `free_ids`. -/
def initBook : AddressBook := ⟨[], 1, ∅⟩

/-- The key set of the store's mapping. -/
def keysOf (st : AddressBook) : List Nat := st.data.map Prod.fst

/-- The stored records in mapping order (`self.data.values()`). -/
def valuesOf (st : AddressBook) : List Rec := st.data.map Prod.snd

/-- Python's `str.lower()` (character-wise case folding). -/
def lower (s : List Char) : List Char := s.map Char.toLower

/-- Whether `needle` is an initial segment of `hay` (helper for `isSubstr`). -/
def isPrefixB : List Char → List Char → Bool
  | [], _ => true
  | _ :: _, [] => false
  | c :: cs, d :: ds => c == d && isPrefixB cs ds

/-- Python's `needle in hay` substring containment on strings. -/
def isSubstr (needle : List Char) : List Char → Bool
  | [] => isPrefixB needle []
  | c :: hs => isPrefixB needle (c :: hs) || isSubstr needle hs

theorem isPrefixB_iff (n : List Char) :
    ∀ h : List Char, isPrefixB n h = true ↔ ∃ v, h = n ++ v := by
  induction n with
  | nil =>
    intro h
    simp [isPrefixB]
  | cons c cs ih =>
    intro h
    cases h with
    | nil =>
      simp [isPrefixB]
    | cons d ds =>
      simp only [isPrefixB, Bool.and_eq_true, beq_iff_eq, ih ds, List.cons_append,
        List.cons.injEq]
      exact ⟨fun hcv => ⟨hcv.2.choose, hcv.1.symm, hcv.2.choose_spec⟩,
        fun hv => ⟨hv.choose_spec.1.symm, hv.choose, hv.choose_spec.2⟩⟩

theorem isSubstr_iff (n : List Char) :
    ∀ h : List Char, isSubstr n h = true ↔ ∃ u v, h = u ++ n ++ v := by
  intro h
  induction h with
  | nil =>
    rw [show isSubstr n [] = isPrefixB n [] from rfl, isPrefixB_iff]
    constructor
    · rintro ⟨v, hv⟩
      exact ⟨[], v, by rw [List.nil_append]; exact hv⟩
    · rintro ⟨u, v, huv⟩
      cases u with
      | nil => exact ⟨v, by simpa using huv⟩
      | cons a u' => simp at huv
  | cons c hs ih =>
    simp only [isSubstr, Bool.or_eq_true, isPrefixB_iff, ih]
    constructor
    · rintro (⟨v, hv⟩ | ⟨u, v, huv⟩)
      · exact ⟨[], v, by rw [List.nil_append]; exact hv⟩
      · exact ⟨c :: u, v, by rw [List.cons_append, List.cons_append, ← huv]⟩
    · rintro ⟨u, v, huv⟩
      cases u with
      | nil => exact Or.inl ⟨v, by simpa using huv⟩
      | cons a u' =>
        rw [List.cons_append, List.cons_append] at huv
        injection huv with h1 h2
        exact Or.inr ⟨u', v, h2⟩

/-- The body of `find_record` for one record: a name match appends the record
and `continue`s to the next record; otherwise the phone loop appends it at
most once (`break`) and then the email loop, which runs regardless of a phone
match, appends it at most once more. -/
def hits (search_term : List Char) (r : Rec) : List Rec :=
  if isSubstr (lower search_term) (lower r.name) then [r]
  else
    (if r.phones.any (fun p => isSubstr search_term p) then [r] else []) ++
      (if r.emails.any (fun e => isSubstr search_term e) then [r] else [])

def findRecAux (search_term : List Char) : List Rec → List Rec
  | [] => []
  | r :: rest => hits search_term r ++ findRecAux search_term rest

/-- `AddressBook.find_record`: scans `self.data.values()` in order and
collects the matches of each record. -/
def find_record (st : AddressBook) (search_term : List Char) : List Rec :=
  findRecAux search_term (valuesOf st)

theorem mem_hits (t : List Char) (r x : Rec) :
    x ∈ hits t r ↔ x = r ∧
      (isSubstr (lower t) (lower r.name) = true ∨
        r.phones.any (fun p => isSubstr t p) = true ∨
        r.emails.any (fun e => isSubstr t e) = true) := by
  by_cases h1 : isSubstr (lower t) (lower r.name) = true <;>
    by_cases h2 : r.phones.any (fun p => isSubstr t p) = true <;>
      by_cases h3 : r.emails.any (fun e => isSubstr t e) = true <;>
        simp [hits, h1, h2, h3]

theorem mem_findRecAux (t : List Char) (x : Rec) :
    ∀ l : List Rec, x ∈ findRecAux t l ↔ ∃ r ∈ l, x ∈ hits t r := by
  intro l
  induction l with
  | nil => simp [findRecAux]
  | cons r rest ih =>
    simp only [findRecAux, List.mem_append, ih, List.mem_cons]
    constructor
    · rintro (hx | ⟨r', hr', hx⟩)
      · exact ⟨r, Or.inl rfl, hx⟩
      · exact ⟨r', Or.inr hr', hx⟩
    · rintro ⟨r', hr' | hr', hx⟩
      · exact Or.inl (hr' ▸ hx)
      · exact Or.inr ⟨r', hr', hx⟩

/-- C8: a record is returned by `find_record` exactly when it is stored and
its lower-cased name contains the lower-cased term (case-insensitive match),
or some phone entry contains the term with exact character content, or some
email entry contains the term with exact character content (case-sensitive
matches). -/
theorem find_record_matching (st : AddressBook) (term : List Char) (x : Rec) :
    x ∈ find_record st term ↔
      x ∈ valuesOf st ∧
        ((∃ u v, lower x.name = u ++ lower term ++ v) ∨
          (∃ p ∈ x.phones, ∃ u v, p = u ++ term ++ v) ∨
          ∃ e ∈ x.emails, ∃ u v, e = u ++ term ++ v) := by
  unfold find_record
  rw [mem_findRecAux]
  constructor
  · rintro ⟨r, hr, hx⟩
    obtain ⟨hxr, hmatch⟩ := (mem_hits term r x).mp hx
    subst hxr
    refine ⟨hr, ?_⟩
    rcases hmatch with h | h | h
    · exact Or.inl ((isSubstr_iff _ _).mp h)
    · obtain ⟨p, hp, hps⟩ := List.any_eq_true.mp h
      exact Or.inr (Or.inl ⟨p, hp, (isSubstr_iff _ _).mp hps⟩)
    · obtain ⟨e, he, hes⟩ := List.any_eq_true.mp h
      exact Or.inr (Or.inr ⟨e, he, (isSubstr_iff _ _).mp hes⟩)
  · rintro ⟨hx, hmatch⟩
    refine ⟨x, hx, (mem_hits term x x).mpr ⟨rfl, ?_⟩⟩
    rcases hmatch with h | ⟨p, hp, hps⟩ | ⟨e, he, hes⟩
    · exact Or.inl ((isSubstr_iff _ _).mpr h)
    · exact Or.inr (Or.inl (List.any_eq_true.mpr ⟨p, hp, (isSubstr_iff _ _).mpr hps⟩))
    · exact Or.inr (Or.inr (List.any_eq_true.mpr ⟨e, he, (isSubstr_iff _ _).mpr hes⟩))

/-- The failing input for C1: a record whose phone list and email list both
contain the search term `"123"`, while the name does not. -/
def dupRecord : Rec :=
  ⟨"Ala".toList, ["123456789".toList], ["123@ab.pl".toList]⟩

def dupBook : AddressBook := ⟨[(1, dupRecord)], 2, ∅⟩

/-- C1 fails on the source: a record matching on a phone entry and on an
email entry (but not on the name) is appended once by the phone loop and once
more by the email loop, so it appears twice in the result of `find_record`. -/
theorem find_record_duplicate :
    find_record dupBook "123".toList = [dupRecord, dupRecord] ∧
      List.count dupRecord (find_record dupBook "123".toList) = 2 := by
  constructor <;> decide

/-- Python dict assignment `self.data[record.id] = record`: replaces the value
in place when the key is present, otherwise appends at the end. -/
def dictInsert (k : Nat) (v : Rec) : List (Nat × Rec) → List (Nat × Rec)
  | [] => [(k, v)]
  | p :: rest => if p.1 = k then (k, v) :: rest else p :: dictInsert k v rest

/-- Python `del self.data[record_id]`: removes the entry with that key. -/
def dictDelete (k : Nat) : List (Nat × Rec) → List (Nat × Rec)
  | [] => []
  | p :: rest => if p.1 = k then rest else p :: dictDelete k rest

/-- `delete_record_by_id` after a successful `int(...)` parse of the user's
input: when the id is a key the entry is removed and the id joins `free_ids`
(`true`, the "Usunięto rekord" message); otherwise the state is untouched
(`false`, the "Nie znaleziono rekordu" message). -/
def delete_record_by_id (st : AddressBook) (record_id : Nat) : AddressBook × Bool :=
  if record_id ∈ keysOf st then
    (⟨dictDelete record_id st.data, st.next_id, insert record_id st.free_ids⟩, true)
  else (st, false)

/-- The loop condition of `_get_next_record_id`:
`self.next_id in self.data or self.next_id in self.free_ids`. -/
def usedB (st : AddressBook) (n : Nat) : Bool :=
  decide (n ∈ keysOf st) || decide (n ∈ st.free_ids)

def advanceAux (used : Nat → Bool) : Nat → Nat → Nat
  | 0, n => n
  | fuel + 1, n => if used n then advanceAux used fuel (n + 1) else n

/-- The ids the `while` loop must skip (sizes the loop fuel). -/
def usedSet (st : AddressBook) : Finset Nat := (keysOf st).toFinset ∪ st.free_ids

/-- The final value of `self.next_id` after the
`while self.next_id in self.data or self.next_id in self.free_ids:
self.next_id += 1` loop of `_get_next_record_id`; the fuel exceeds the number
of ids the loop can skip, so it always reaches an unused value. -/
def advanceFrom (st : AddressBook) : Nat :=
  advanceAux (usedB st) ((usedSet st).card + 1) st.next_id

theorem advanceAux_spec (u : Finset Nat) (f : Nat → Bool)
    (hf : ∀ n, f n = true ↔ n ∈ u) :
    ∀ (fuel n : Nat), (u.filter (fun m => n ≤ m)).card < fuel →
      f (advanceAux f fuel n) = false ∧ n ≤ advanceAux f fuel n ∧
        ∀ m, n ≤ m → m < advanceAux f fuel n → m ∈ u := by
  intro fuel
  induction fuel with
  | zero =>
    intro n hn
    exact absurd hn (Nat.not_lt_zero _)
  | succ fuel ih =>
    intro n hn
    by_cases hu : f n = true
    · have hnu : n ∈ u := (hf n).mp hu
      have hsub : u.filter (fun m => n + 1 ≤ m) = (u.filter (fun m => n ≤ m)).erase n := by
        ext m
        simp only [Finset.mem_filter, Finset.mem_erase]
        constructor
        · rintro ⟨hm, hle⟩
          exact ⟨by omega, hm, by omega⟩
        · rintro ⟨hne, hm, hle⟩
          refine ⟨hm, ?_⟩
          rcases Nat.eq_or_lt_of_le hle with h | h
          · exact absurd h.symm hne
          · omega
      have hmem : n ∈ u.filter (fun m => n ≤ m) := Finset.mem_filter.mpr ⟨hnu, le_refl n⟩
      have hcard : (u.filter (fun m => n + 1 ≤ m)).card < fuel := by
        rw [hsub]
        have := Finset.card_erase_of_mem hmem
        have hpos : 0 < (u.filter (fun m => n ≤ m)).card := Finset.card_pos.mpr ⟨n, hmem⟩
        omega
      obtain ⟨h1, h2, h3⟩ := ih (n + 1) hcard
      have hstep : advanceAux f (fuel + 1) n = advanceAux f fuel (n + 1) := by
        simp [advanceAux, hu]
      rw [hstep]
      refine ⟨h1, by omega, ?_⟩
      intro m hm hlt
      rcases Nat.eq_or_lt_of_le hm with h | h
      · rw [← h]; exact hnu
      · exact h3 m h hlt
    · have hstep : advanceAux f (fuel + 1) n = n := by
        simp [advanceAux, hu]
      rw [hstep]
      rw [Bool.not_eq_true] at hu
      exact ⟨hu, le_refl n, fun m hm hlt => absurd (lt_of_le_of_lt hm hlt) (lt_irrefl n)⟩

theorem advanceFrom_spec (st : AddressBook) :
    advanceFrom st ∉ keysOf st ∧ advanceFrom st ∉ st.free_ids ∧
      st.next_id ≤ advanceFrom st ∧
      ∀ m, st.next_id ≤ m → m < advanceFrom st → m ∈ keysOf st ∨ m ∈ st.free_ids := by
  have hf : ∀ n, usedB st n = true ↔ n ∈ usedSet st := by
    intro n
    simp [usedB, usedSet, List.mem_toFinset, Finset.mem_union]
  have hcard : ((usedSet st).filter (fun m => st.next_id ≤ m)).card < (usedSet st).card + 1 :=
    lt_of_le_of_lt (Finset.card_filter_le _ _) (Nat.lt_succ_self _)
  obtain ⟨h1, h2, h3⟩ :=
    advanceAux_spec (usedSet st) (usedB st) hf ((usedSet st).card + 1) st.next_id hcard
  have hmem : ∀ m, m ∈ usedSet st ↔ m ∈ keysOf st ∨ m ∈ st.free_ids := by
    intro m
    simp [usedSet, List.mem_toFinset, Finset.mem_union]
  have hnu : advanceFrom st ∉ usedSet st := by
    intro hin
    rw [← hf] at hin
    rw [show advanceFrom st
      = advanceAux (usedB st) ((usedSet st).card + 1) st.next_id from rfl] at hin
    rw [h1] at hin
    exact Bool.false_ne_true hin
  refine ⟨?_, ?_, h2, ?_⟩
  · intro hk
    exact hnu ((hmem _).mpr (Or.inl hk))
  · intro hk
    exact hnu ((hmem _).mpr (Or.inr hk))
  · intro m hm hlt
    exact (hmem m).mp (h3 m hm hlt)

/-- `_get_next_record_id`: the `while` loop advances `next_id`, then
`self.free_ids.pop()` removes and returns an arbitrary member of the pool
when it is non-empty — Python's `set.pop` fixes no particular element — and
otherwise `next_id` itself is returned.  The relation holds between the
pre-state, the post-state and the returned id for every choice `set.pop` is
permitted to make. -/
inductive AllocRel : AddressBook → AddressBook → Nat → Prop
  | pop (st : AddressBook) (x : Nat) (hx : x ∈ st.free_ids) :
      AllocRel st ⟨st.data, advanceFrom st, st.free_ids.erase x⟩ x
  | fresh (st : AddressBook) (h : st.free_ids = ∅) :
      AllocRel st ⟨st.data, advanceFrom st, st.free_ids⟩ (advanceFrom st)

/-- One externally visible mutation of the store: `add_record` (an allocation
followed by `self.data[record.id] = record`) or `delete_record_by_id`. -/
inductive Step : AddressBook → AddressBook → Prop
  | add (st st' : AddressBook) (x : Nat) (r : Rec) (h : AllocRel st st' x) :
      Step st ⟨dictInsert x r st'.data, st'.next_id, st'.free_ids⟩
  | del (st : AddressBook) (record_id : Nat) :
      Step st (delete_record_by_id st record_id).1

/-- The states reachable from a fresh `AddressBook` by any sequence of
`add_record` and `delete_record_by_id` calls. -/
def Reachable (st : AddressBook) : Prop :=
  Relation.ReflTransGen Step initBook st

/-- The allocator/store invariant maintained by every operation: keys are
unique and positive, pooled ids are positive and disjoint from the keys,
`next_id` is positive, and every positive id below `next_id` is either live
or pooled. -/
def StoreInv (st : AddressBook) : Prop :=
  (keysOf st).Nodup ∧
    (∀ k ∈ keysOf st, 0 < k) ∧
    (∀ k ∈ st.free_ids, 0 < k) ∧
    (∀ k ∈ st.free_ids, k ∉ keysOf st) ∧
    1 ≤ st.next_id ∧
    ∀ m, 0 < m → m < st.next_id → m ∈ keysOf st ∨ m ∈ st.free_ids

theorem inv_initBook : StoreInv initBook := by
  have hnext : initBook.next_id = 1 := rfl
  refine ⟨List.nodup_nil, ?_, ?_, ?_, le_refl 1, ?_⟩
  · intro k hk
    simp [keysOf, initBook] at hk
  · intro k hk
    simp [initBook] at hk
  · intro k hk
    simp [initBook] at hk
  · intro m h1 h2
    rw [hnext] at h2
    omega

theorem map_fst_dictInsert (k : Nat) (v : Rec) :
    ∀ l : List (Nat × Rec), (dictInsert k v l).map Prod.fst
      = if k ∈ l.map Prod.fst then l.map Prod.fst else l.map Prod.fst ++ [k] := by
  intro l
  induction l with
  | nil => simp [dictInsert]
  | cons p rest ih =>
    by_cases hk : p.1 = k
    · rw [show dictInsert k v (p :: rest) = (k, v) :: rest from by simp [dictInsert, hk]]
      rw [List.map_cons, List.map_cons,
        if_pos (by rw [hk]; exact List.mem_cons_self _ _), hk]
    · rw [show dictInsert k v (p :: rest) = p :: dictInsert k v rest from by
        simp [dictInsert, hk]]
      rw [List.map_cons, List.map_cons, ih]
      by_cases hmem : k ∈ rest.map Prod.fst
      · rw [if_pos hmem, if_pos (List.mem_cons_of_mem _ hmem)]
      · rw [if_neg hmem, if_neg (by
          intro hc
          rcases List.mem_cons.mp hc with h | h
          · exact hk h.symm
          · exact hmem h), List.cons_append]

theorem map_fst_dictDelete (k : Nat) :
    ∀ l : List (Nat × Rec), (dictDelete k l).map Prod.fst = (l.map Prod.fst).erase k := by
  intro l
  induction l with
  | nil => simp [dictDelete]
  | cons p rest ih =>
    by_cases hk : p.1 = k
    · rw [show dictDelete k (p :: rest) = rest from by simp [dictDelete, hk]]
      rw [List.map_cons, hk, List.erase_cons_head]
    · rw [show dictDelete k (p :: rest) = p :: dictDelete k rest from by
        simp [dictDelete, hk]]
      rw [List.map_cons, List.map_cons, ih,
        List.erase_cons_tail (by simpa using hk)]

theorem keys_insert_fresh (st : AddressBook) (a : Nat) (r : Rec) (ha : a ∉ keysOf st) :
    (dictInsert a r st.data).map Prod.fst = keysOf st ++ [a] := by
  rw [map_fst_dictInsert]
  rw [if_neg (show a ∉ st.data.map Prod.fst from ha)]
  rfl

theorem inv_pop_insert (st : AddressBook) (x : Nat) (r : Rec)
    (hInv : StoreInv st) (hx : x ∈ st.free_ids) :
    StoreInv ⟨dictInsert x r st.data, advanceFrom st, st.free_ids.erase x⟩ := by
  obtain ⟨hnd, hkpos, hfpos, hdisj, hnext, hcov⟩ := hInv
  obtain ⟨hak, haf, hale, hacov⟩ := advanceFrom_spec st
  have hxk : x ∉ keysOf st := hdisj x hx
  have hkeys : (dictInsert x r st.data).map Prod.fst = keysOf st ++ [x] :=
    keys_insert_fresh st x r hxk
  refine ⟨?_, ?_, ?_, ?_, ?_, ?_⟩
  · show ((dictInsert x r st.data).map Prod.fst).Nodup
    rw [hkeys]
    exact List.nodup_append.mpr ⟨hnd, List.nodup_singleton x,
      fun a ha hax => hxk (by rwa [List.mem_singleton.mp hax] at ha)⟩
  · show ∀ k ∈ (dictInsert x r st.data).map Prod.fst, 0 < k
    rw [hkeys]
    intro k hk
    rcases List.mem_append.mp hk with h | h
    · exact hkpos k h
    · rw [List.mem_singleton.mp h]
      exact hfpos x hx
  · intro k hk
    exact hfpos k (Finset.mem_of_mem_erase hk)
  · show ∀ k ∈ st.free_ids.erase x, k ∉ (dictInsert x r st.data).map Prod.fst
    rw [hkeys]
    intro k hk hkmem
    obtain ⟨hkx, hkf⟩ := Finset.mem_erase.mp hk
    rcases List.mem_append.mp hkmem with h | h
    · exact hdisj k hkf h
    · exact hkx (List.mem_singleton.mp h)
  · exact le_trans hnext hale
  · show ∀ m, 0 < m → m < advanceFrom st →
      m ∈ (dictInsert x r st.data).map Prod.fst ∨ m ∈ st.free_ids.erase x
    rw [hkeys]
    intro m hm hlt
    have hcase : m ∈ keysOf st ∨ m ∈ st.free_ids := by
      rcases Nat.lt_or_ge m st.next_id with hlow | hhigh
      · exact hcov m hm hlow
      · exact hacov m hhigh hlt
    rcases hcase with h | h
    · exact Or.inl (List.mem_append.mpr (Or.inl h))
    · by_cases hmx : m = x
      · refine Or.inl (List.mem_append.mpr (Or.inr ?_))
        rw [hmx]
        exact List.mem_singleton_self x
      · exact Or.inr (Finset.mem_erase.mpr ⟨hmx, h⟩)

theorem inv_fresh_insert (st : AddressBook) (r : Rec)
    (hInv : StoreInv st) (hfree : st.free_ids = ∅) :
    StoreInv ⟨dictInsert (advanceFrom st) r st.data, advanceFrom st, st.free_ids⟩ := by
  obtain ⟨hnd, hkpos, hfpos, hdisj, hnext, hcov⟩ := hInv
  obtain ⟨hak, haf, hale, hacov⟩ := advanceFrom_spec st
  have hkeys : (dictInsert (advanceFrom st) r st.data).map Prod.fst
      = keysOf st ++ [advanceFrom st] := keys_insert_fresh st _ r hak
  refine ⟨?_, ?_, ?_, ?_, ?_, ?_⟩
  · show ((dictInsert (advanceFrom st) r st.data).map Prod.fst).Nodup
    rw [hkeys]
    exact List.nodup_append.mpr ⟨hnd, List.nodup_singleton _,
      fun a ha hax => hak (by rwa [List.mem_singleton.mp hax] at ha)⟩
  · show ∀ k ∈ (dictInsert (advanceFrom st) r st.data).map Prod.fst, 0 < k
    rw [hkeys]
    intro k hk
    rcases List.mem_append.mp hk with h | h
    · exact hkpos k h
    · rw [List.mem_singleton.mp h]
      omega
  · intro k hk
    exact hfpos k hk
  · show ∀ k ∈ st.free_ids, k ∉ (dictInsert (advanceFrom st) r st.data).map Prod.fst
    intro k hk
    rw [hfree] at hk
    simp at hk
  · exact le_trans hnext hale
  · show ∀ m, 0 < m → m < advanceFrom st →
      m ∈ (dictInsert (advanceFrom st) r st.data).map Prod.fst ∨ m ∈ st.free_ids
    rw [hkeys]
    intro m hm hlt
    have hcase : m ∈ keysOf st ∨ m ∈ st.free_ids := by
      rcases Nat.lt_or_ge m st.next_id with hlow | hhigh
      · exact hcov m hm hlow
      · exact hacov m hhigh hlt
    rcases hcase with h | h
    · exact Or.inl (List.mem_append.mpr (Or.inl h))
    · rw [hfree] at h
      simp at h

theorem inv_delete (st : AddressBook) (record_id : Nat) (hInv : StoreInv st) :
    StoreInv (delete_record_by_id st record_id).1 := by
  obtain ⟨hnd, hkpos, hfpos, hdisj, hnext, hcov⟩ := hInv
  unfold delete_record_by_id
  by_cases hk : record_id ∈ keysOf st
  · rw [if_pos hk]
    have hkeys : (dictDelete record_id st.data).map Prod.fst
        = (keysOf st).erase record_id := map_fst_dictDelete record_id st.data
    refine ⟨?_, ?_, ?_, ?_, hnext, ?_⟩
    · show ((dictDelete record_id st.data).map Prod.fst).Nodup
      rw [hkeys]
      exact List.Nodup.erase _ hnd
    · show ∀ k ∈ (dictDelete record_id st.data).map Prod.fst, 0 < k
      rw [hkeys]
      intro k hkm
      exact hkpos k (List.mem_of_mem_erase hkm)
    · intro k hkm
      rcases Finset.mem_insert.mp hkm with h | h
      · rw [h]
        exact hkpos _ hk
      · exact hfpos k h
    · show ∀ k ∈ insert record_id st.free_ids,
        k ∉ (dictDelete record_id st.data).map Prod.fst
      rw [hkeys]
      intro k hkm hcontra
      rcases Finset.mem_insert.mp hkm with h | h
      · rw [h] at hcontra
        exact ((hnd.mem_erase_iff).mp hcontra).1 rfl
      · exact hdisj k h (List.mem_of_mem_erase hcontra)
    · show ∀ m, 0 < m → m < st.next_id →
        m ∈ (dictDelete record_id st.data).map Prod.fst ∨ m ∈ insert record_id st.free_ids
      rw [hkeys]
      intro m hm hlt
      rcases hcov m hm hlt with h | h
      · by_cases hmr : m = record_id
        · exact Or.inr (Finset.mem_insert.mpr (Or.inl hmr))
        · exact Or.inl ((List.mem_erase_of_ne hmr).mpr h)
      · exact Or.inr (Finset.mem_insert.mpr (Or.inr h))
  · rw [if_neg hk]
    exact ⟨hnd, hkpos, hfpos, hdisj, hnext, hcov⟩

theorem inv_step (st st' : AddressBook) (hInv : StoreInv st) (h : Step st st') :
    StoreInv st' := by
  cases h with
  | add b x r hAlloc =>
    cases hAlloc with
    | pop _ hy => exact inv_pop_insert st x r hInv hy
    | fresh hfree => exact inv_fresh_insert st r hInv hfree
  | del record_id => exact inv_delete st record_id hInv

theorem inv_reachable (st : AddressBook) (h : Reachable st) : StoreInv st := by
  unfold Reachable at h
  induction h with
  | refl => exact inv_initBook
  | tail hab hbc ih => exact inv_step _ _ ih hbc

theorem alloc_least_of_empty (st : AddressBook) (hInv : StoreInv st)
    (hfree : st.free_ids = ∅) :
    0 < advanceFrom st ∧ advanceFrom st ∉ keysOf st ∧
      ∀ m, 0 < m → m ∉ keysOf st → advanceFrom st ≤ m := by
  obtain ⟨hak, haf, hale, hacov⟩ := advanceFrom_spec st
  have hnext := hInv.2.2.2.2.1
  refine ⟨by omega, hak, ?_⟩
  intro m hm hmk
  by_contra hlt
  push_neg at hlt
  rcases Nat.lt_or_ge m st.next_id with hlow | hhigh
  · rcases hInv.2.2.2.2.2 m hm hlow with h | h
    · exact hmk h
    · rw [hfree] at h
      exact absurd h (Finset.not_mem_empty m)
  · rcases hacov m hhigh hlt with h | h
    · exact hmk h
    · rw [hfree] at h
      exact absurd h (Finset.not_mem_empty m)

/-- C4: in every store state reachable from a fresh `AddressBook` by
`add_record` and `delete_record_by_id` calls, the identifiers of live records
are pairwise distinct and positive, and `free_ids` never intersects the key
set of the mapping. -/
theorem ids_unique_positive_disjoint (st : AddressBook) (h : Reachable st) :
    (keysOf st).Nodup ∧ (∀ k ∈ keysOf st, 0 < k) ∧
      ∀ k ∈ st.free_ids, k ∉ keysOf st := by
  obtain ⟨hnd, hkpos, _, hdisj, _, _⟩ := inv_reachable st h
  exact ⟨hnd, hkpos, hdisj⟩

theorem ids_unique_positive_disjoint_witness :
    (keysOf initBook).Nodup ∧ (∀ k ∈ keysOf initBook, 0 < k) ∧
      ∀ k ∈ initBook.free_ids, k ∉ keysOf initBook :=
  ids_unique_positive_disjoint initBook Relation.ReflTransGen.refl

/-- C10: in every reachable state, each positive identifier strictly below
`next_id` is either a key of the mapping or a member of `free_ids`; as a
consequence, when `free_ids` is empty `_get_next_record_id` returns the
smallest positive identifier not currently in use by the store. -/
theorem low_ids_covered (st : AddressBook) (h : Reachable st) :
    (∀ m, 0 < m → m < st.next_id → m ∈ keysOf st ∨ m ∈ st.free_ids) ∧
      (st.free_ids = ∅ → ∀ (st' : AddressBook) (x : Nat), AllocRel st st' x →
        0 < x ∧ x ∉ keysOf st ∧ ∀ m, 0 < m → m ∉ keysOf st → x ≤ m) := by
  have hInv := inv_reachable st h
  refine ⟨hInv.2.2.2.2.2, ?_⟩
  intro hfree st' x hAlloc
  cases hAlloc with
  | pop _ hy =>
    rw [hfree] at hy
    exact absurd hy (Finset.not_mem_empty x)
  | fresh hf => exact alloc_least_of_empty st hInv hfree

theorem low_ids_covered_witness :
    (∀ m, 0 < m → m < initBook.next_id → m ∈ keysOf initBook ∨ m ∈ initBook.free_ids) ∧
      (initBook.free_ids = ∅ → ∀ (st' : AddressBook) (x : Nat), AllocRel initBook st' x →
        0 < x ∧ x ∉ keysOf initBook ∧ ∀ m, 0 < m → m ∉ keysOf initBook → x ≤ m) :=
  low_ids_covered initBook Relation.ReflTransGen.refl

/-- A state with two released ids, used to exhibit the arbitrariness of
`set.pop`. -/
def popBook : AddressBook := ⟨[], 3, {1, 2}⟩

/-- C3 as stated fails on the source: `self.free_ids.pop()` is Python's
`set.pop`, which removes and returns an ARBITRARY element; the allocation
relation therefore admits popping `2` from the pool `{1, 2}`, which is not
its minimum `1`. -/
theorem alloc_min_counterexample :
    ¬ ∀ (st st' : AddressBook) (x : Nat), AllocRel st st' x →
        st.free_ids.Nonempty → ∀ y ∈ st.free_ids, x ≤ y := by
  intro hcl
  have h2 : (2 : Nat) ∈ popBook.free_ids := by decide
  have h1 : (1 : Nat) ∈ popBook.free_ids := by decide
  have := hcl popBook _ 2 (AllocRel.pop popBook 2 h2) ⟨2, h2⟩ 1 h1
  omega

/-- C3 (amended): whenever an id is allocated, if `free_ids` is non-empty the
allocator removes and returns SOME element of the pool — Python's `set.pop`
fixes no particular one, so the minimum is not guaranteed — and if the pool is
empty it returns the smallest positive integer not currently in use by the
store. -/
theorem alloc_amended (st st' : AddressBook) (x : Nat) (hR : Reachable st)
    (h : AllocRel st st' x) :
    (st.free_ids.Nonempty →
        x ∈ st.free_ids ∧ st'.free_ids = st.free_ids.erase x ∧ st'.data = st.data) ∧
      (st.free_ids = ∅ →
        0 < x ∧ x ∉ keysOf st ∧ ∀ m, 0 < m → m ∉ keysOf st → x ≤ m) := by
  cases h with
  | pop _ hy =>
    refine ⟨fun _ => ⟨hy, rfl, rfl⟩, ?_⟩
    intro hfree
    rw [hfree] at hy
    exact absurd hy (Finset.not_mem_empty x)
  | fresh hf =>
    refine ⟨?_, fun _ => alloc_least_of_empty st (inv_reachable st hR) hf⟩
    intro hne
    rw [hf] at hne
    exact absurd hne Finset.not_nonempty_empty

theorem alloc_amended_witness :
    (initBook.free_ids.Nonempty →
        advanceFrom initBook ∈ initBook.free_ids ∧
          (⟨initBook.data, advanceFrom initBook, initBook.free_ids⟩ : AddressBook).free_ids
              = initBook.free_ids.erase (advanceFrom initBook) ∧
          (⟨initBook.data, advanceFrom initBook, initBook.free_ids⟩ : AddressBook).data
              = initBook.data) ∧
      (initBook.free_ids = ∅ →
        0 < advanceFrom initBook ∧ advanceFrom initBook ∉ keysOf initBook ∧
          ∀ m, 0 < m → m ∉ keysOf initBook → advanceFrom initBook ≤ m) :=
  alloc_amended initBook _ (advanceFrom initBook) Relation.ReflTransGen.refl
    (AllocRel.fresh initBook rfl)

/-- C9: deleting an identifier that is not a key of the store reports
"not found" (`false`) instead of failing, and returns the state entirely
unchanged — same mapping (hence same key set), same `free_ids`, same
`next_id`. -/
theorem delete_absent_id (st : AddressBook) (record_id : Nat)
    (h : record_id ∉ keysOf st) :
    delete_record_by_id st record_id = (st, false) := by
  unfold delete_record_by_id
  rw [if_neg h]

theorem delete_absent_id_witness :
    delete_record_by_id initBook 7 = (initBook, false) :=
  delete_absent_id initBook 7 (by decide)

def namesOf : List (Nat × Rec) → List (List Char)
  | [] => []
  | p :: rest => p.2.name :: namesOf rest

def phonesOf : List (Nat × Rec) → List (List Char)
  | [] => []
  | p :: rest => p.2.phones ++ phonesOf rest

def emailsOf : List (Nat × Rec) → List (List Char)
  | [] => []
  | p :: rest => p.2.emails ++ emailsOf rest

/-- `suggest_correction_search`: the candidate pool is every stored name,
then every phone entry, then every email entry (each in store order), and the
suggestion is the stable `min` keyed by `weighted_levenshtein_distance`
against the search term (`none` models the `ValueError` Python's `min` raises
on an empty pool). -/
def suggest_correction_search (search_term : List Char) (book : AddressBook) :
    Option (List Char) :=
  pyMinBy (fun x => weighted_levenshtein_distance search_term x)
    (namesOf book.data ++ phonesOf book.data ++ emailsOf book.data)
